import Mathlib

/-
Verification of the download-coordination core of the rain BitTorrent client.

The Go sources embedded here are internal/downloader/downloader.go and
internal/announcer/announcer.go.  Go maps are modelled as association lists
(respectively lists of keys when only membership matters), peers are
identified by a stable numeric id, and each event handler of the
orchestrator's Run loop becomes a pure function from the downloader state to
a new state plus the list of wire messages launched by the handler.
-/

namespace Rain

/-- Stable identifier of a connected remote peer (a *peer.Peer in Go). -/
abbrev PeerId := Nat

/-- Per-connected-peer state of the downloader (type Peer of the downloader
package; the struct is used field-by-field in downloader.go). -/
structure Peer where
  amChoking : Bool
  peerChoking : Bool
  amInterested : Bool
  optimisticUnhoked : Bool
  bytesDownlaodedInChokePeriod : Int
deriving DecidableEq

/-- Per-torrent-piece state of the downloader (type Piece of the downloader
package; fields as used in downloader.go: the three peer sets and the
writing flag, plus the piece index). -/
structure Piece where
  index : Nat
  havingPeers : List PeerId
  allowedFastPeers : List PeerId
  requestedPeers : List PeerId
  writing : Bool
deriving DecidableEq

/-- Default piece used only as the out-of-range fallback of list indexing. -/
def Piece.empty : Piece :=
  { index := 0, havingPeers := [], allowedFastPeers := [], requestedPeers := [], writing := false }

/-- The orchestrator state (struct Downloader of downloader.go).  The
bitfield of locally complete pieces is a list of booleans, connectedPeers is
an association list keyed by peer id, downloads holds the peers hosting an
active piece download, and downloadersSem is the counting semaphore of
download slots. -/
structure Downloader where
  bitfield : List Bool
  pieces : List Piece
  connectedPeers : List (PeerId × Peer)
  downloads : List PeerId
  optimisticUnchokedPeer : Option PeerId
  downloadersSem : Nat
deriving DecidableEq

/-- Wire messages launched (fire-and-forget) by the orchestrator. -/
inductive Msg where
  | choke (q : PeerId)
  | unchoke (q : PeerId)
  | interested (q : PeerId)
  | notInterested (q : PeerId)
  | sendHave (q : PeerId) (idx : Nat)
deriving DecidableEq

/-- Lookup in an association list of peers (Go map read). -/
def lookupPeer : List (PeerId × Peer) → PeerId → Option Peer
  | [], _ => none
  | e :: rest, q => if e.1 = q then some e.2 else lookupPeer rest q

/-- Update the entry of a key in an association list of peers (Go mutates
the pointed-to Peer struct; entries of other keys are untouched). -/
def updatePeerEntry (l : List (PeerId × Peer)) (q : PeerId) (f : Peer → Peer) :
    List (PeerId × Peer) :=
  l.map (fun e => if e.1 = q then (e.1, f e.2) else e)

/-- Delete a peer from a set of peers (Go map delete). -/
def removeAll (l : List PeerId) (q : PeerId) : List PeerId :=
  l.filter (fun x => decide (x ≠ q))

/-- Point update of the piece table at one index. -/
def updatePieceAt (l : List Piece) (i : Nat) (f : Piece → Piece) : List Piece :=
  l.set i (f (l.getD i Piece.empty))

/-- chokePeer of downloader.go: flip amChoking to true and send Choke only
when the state actually flips. -/
def chokePeer (d : Downloader) (q : PeerId) : Downloader × List Msg :=
  match lookupPeer d.connectedPeers q with
  | none => (d, [])
  | some pe =>
    if pe.amChoking then (d, [])
    else
      ({ d with connectedPeers := (updatePeerEntry d.connectedPeers q
           (fun p => { p with amChoking := true })) }, [Msg.choke q])

/-- unchokePeer of downloader.go: flip amChoking to false and send Unchoke
only when the state actually flips. -/
def unchokePeer (d : Downloader) (q : PeerId) : Downloader × List Msg :=
  match lookupPeer d.connectedPeers q with
  | none => (d, [])
  | some pe =>
    if pe.amChoking then
      ({ d with connectedPeers := (updatePeerEntry d.connectedPeers q
           (fun p => { p with amChoking := false })) }, [Msg.unchoke q])
    else (d, [])

/-- The interest scan of updateInterestedState: some piece below the
bitfield length is missing locally and held by q. -/
def interestedCalc (d : Downloader) (q : PeerId) : Bool :=
  decide (∃ i < d.bitfield.length,
    d.bitfield.getD i false = false ∧ q ∈ (d.pieces.getD i Piece.empty).havingPeers)

/-- updateInterestedState of downloader.go: recompute interest for one peer
and send Interested / NotInterested exactly on a flip.  (The Go code takes a
*Peer pointer that is always non-nil at the call sites modelled here; the
none branch is unreachable under the claims' hypotheses.) -/
def updateInterestedState (d : Downloader) (q : PeerId) : Downloader × List Msg :=
  match lookupPeer d.connectedPeers q with
  | none => (d, [])
  | some pe =>
    let interested := interestedCalc d q
    if !pe.amInterested && interested then
      ({ d with connectedPeers := (updatePeerEntry d.connectedPeers q
           (fun p => { p with amInterested := true })) }, [Msg.interested q])
    else if pe.amInterested && !interested then
      ({ d with connectedPeers := (updatePeerEntry d.connectedPeers q
           (fun p => { p with amInterested := false })) }, [Msg.notInterested q])
    else (d, [])

/-- The Disconnect handler of Run: drop the peer from connectedPeers and
from every piece's three membership sets.  The downloads map is not touched
by this handler in the source. -/
def disconnect (d : Downloader) (q : PeerId) : Downloader :=
  { d with
    connectedPeers := d.connectedPeers.filter (fun e => decide (e.1 ≠ q)),
    pieces := d.pieces.map (fun p =>
      { p with
        havingPeers := removeAll p.havingPeers q,
        allowedFastPeers := removeAll p.allowedFastPeers q,
        requestedPeers := removeAll p.requestedPeers q }) }

/-- Sort key encoding availability first and piece index second; since
every index is at most n, the key orders pieces lexicographically by
(availability, index). -/
def pieceKey (n : Nat) (p : Piece) : Nat :=
  p.havingPeers.length * (n + 1) + p.index

/-- Modelled from the spec: the ByAvailability sort order of the downloader
package (its file is not under src/): availability ascending, ties broken by
piece index. -/
def byAvailability (n : Nat) (p q : Piece) : Prop :=
  pieceKey n p ≤ pieceKey n q

instance (n : Nat) : DecidableRel (byAvailability n) :=
  fun p q => Nat.decLe (pieceKey n p) (pieceKey n q)

instance (n : Nat) : IsTotal Piece (byAvailability n) :=
  ⟨fun p q => Nat.le_total (pieceKey n p) (pieceKey n q)⟩

instance (n : Nat) : IsTrans Piece (byAvailability n) :=
  ⟨fun _ _ _ h h' => Nat.le_trans h h'⟩

/-- The sorted view of the piece table used by nextDownload (the
sortedPieces field of the Go struct, sorted at the top of nextDownload). -/
def sortedPieces (d : Downloader) : List Piece :=
  List.insertionSort (byAvailability d.pieces.length) d.pieces

/-- The four skip tests at the top of the nextDownload scan: a piece is
eligible iff its bitfield bit is unset, no download is in flight for it, no
writer is flushing it, and some peer advertises it. -/
def eligibleB (d : Downloader) (p : Piece) : Bool :=
  !(d.bitfield.getD p.index false) && p.requestedPeers.isEmpty
    && !p.writing && !p.havingPeers.isEmpty

/-- peerChoking as read through the pointer stored in havingPeers; absent
peers (never the case at the modelled call sites) default to choking. -/
def peerChokingOf (d : Downloader) (q : PeerId) : Bool :=
  match lookupPeer d.connectedPeers q with
  | some pe => pe.peerChoking
  | none => true

/-- The two peer-selection loops inside nextDownload: first a peer of the
piece that granted allowed-fast (regardless of its choke state), then any
peer that is not choking us; both skip peers hosting an active download. -/
def pickPeer (d : Downloader) (p : Piece) : Option PeerId :=
  match p.havingPeers.find? (fun q =>
      decide (q ∈ p.allowedFastPeers) && !decide (q ∈ d.downloads)) with
  | some q => some q
  | none =>
    p.havingPeers.find? (fun q =>
      !peerChokingOf d q && !decide (q ∈ d.downloads))

/-- nextDownload of downloader.go: scan the availability-sorted pieces,
skip ineligible ones, and return the first surviving (piece index, peer)
pair, or none. -/
def nextDownload (d : Downloader) : Option (Nat × PeerId) :=
  (sortedPieces d).findSome? (fun p =>
    if eligibleB d p then (pickPeer d p).map (fun q => (p.index, q)) else none)

/-- Modelled from the spec: the ByDownloadRate sort order of the downloader
package (its file is not under src/): bytes downloaded in the current choke
period, descending. -/
def byDownloadRate (a b : PeerId × Peer) : Prop :=
  b.2.bytesDownlaodedInChokePeriod ≤ a.2.bytesDownlaodedInChokePeriod

instance : DecidableRel byDownloadRate :=
  fun a b => Int.decLe b.2.bytesDownlaodedInChokePeriod a.2.bytesDownlaodedInChokePeriod

instance : IsTotal (PeerId × Peer) byDownloadRate :=
  ⟨fun a b => Int.le_total b.2.bytesDownlaodedInChokePeriod a.2.bytesDownlaodedInChokePeriod⟩

instance : IsTrans (PeerId × Peer) byDownloadRate :=
  ⟨fun _ _ _ h h' => Int.le_trans h' h⟩

/-- The peers entering the regular-unchoke competition: all connected peers
that are not the optimistic pick. -/
def unchokeCandidates (d : Downloader) : List (PeerId × Peer) :=
  d.connectedPeers.filter (fun e => !e.2.optimisticUnhoked)

/-- The ids of the top three candidates of the rate-sorted list. -/
def top3 (d : Downloader) : List PeerId :=
  ((List.insertionSort byDownloadRate (unchokeCandidates d)).take 3).map Prod.fst

/-- Reset every connected peer's choke-period download counter. -/
def resetCounters (d : Downloader) : Downloader :=
  { d with connectedPeers := (d.connectedPeers.map
      (fun e => (e.1, { e.2 with bytesDownlaodedInChokePeriod := 0 }))) }

/-- Choke each listed peer in turn, accumulating the launched messages. -/
def chokeAll (d : Downloader) : List PeerId → Downloader × List Msg
  | [] => (d, [])
  | q :: rest =>
    let r := chokePeer d q
    let r' := chokeAll r.1 rest
    (r'.1, r.2 ++ r'.2)

/-- Unchoke each listed peer in turn, accumulating the launched messages. -/
def unchokeAll (d : Downloader) : List PeerId → Downloader × List Msg
  | [] => (d, [])
  | q :: rest =>
    let r := unchokePeer d q
    let r' := unchokeAll r.1 rest
    (r'.1, r.2 ++ r'.2)

/-- The regular-unchoke (10 s) tick of Run: sort the non-optimistic peers by
download rate, reset every counter, unchoke the top three, and choke every
connected peer outside that top-three set. -/
def regularUnchokeTick (d : Downloader) : Downloader × List Msg :=
  let top := top3 d
  let r := unchokeAll (resetCounters d) top
  let targets := (d.connectedPeers.map Prod.fst).filter (fun q => !decide (q ∈ top))
  let r' := chokeAll r.1 targets
  (r'.1, r.2 ++ r'.2)

/-- The candidate set of the optimistic-unchoke tick: connected peers that
we are choking and that are not already the optimistic pick. -/
def optimisticCandidates (d : Downloader) : List (PeerId × Peer) :=
  d.connectedPeers.filter (fun e => !e.2.optimisticUnhoked && e.2.amChoking)

/-- The optimistic-unchoke (30 s) tick of Run.  r models the random draw of
rand.Intn.  The result is none exactly when the source would panic: with an
empty candidate set the code evaluates rand.Intn(0), which panics. -/
def optimisticUnchokeTick (d : Downloader) (r : Nat) : Option (Downloader × List Msg) :=
  let peers := optimisticCandidates d
  let cleared :=
    match d.optimisticUnchokedPeer with
    | some p =>
      chokePeer
        { d with connectedPeers := (updatePeerEntry d.connectedPeers p
            (fun pe => { pe with optimisticUnhoked := false })) } p
    | none => (d, [])
  if peers.isEmpty then none
  else
    let e := peers.getD (r % peers.length) (0, Peer.mk true true false false 0)
    let d2 := { cleared.1 with connectedPeers := (updatePeerEntry cleared.1.connectedPeers e.1
        (fun pe => { pe with optimisticUnhoked := true })) }
    let r2 := unchokePeer d2 e.1
    some ({ r2.1 with optimisticUnchokedPeer := some e.1 }, cleared.2 ++ r2.2)

/-- Terminal outcome of a piece-downloader delivered on the DownloadDone
channel: piece bytes that pass or fail hash verification, or an error. -/
inductive DownloadResult where
  | done (verified : Bool)
  | err
deriving DecidableEq

/-- The DownloadDone handler of Run: release the slot (downloads entry,
requestedPeers entry, one semaphore permit), then on verified bytes mark the
piece writing and submit a write request (returned as some index); on a hash
mismatch or a download error nothing more happens. -/
def handleDownloadDone (d : Downloader) (pdIdx : Nat) (pdPeer : PeerId)
    (res : DownloadResult) : Downloader × Option Nat :=
  let d1 := { d with
    downloads := removeAll d.downloads pdPeer,
    pieces := (updatePieceAt d.pieces pdIdx
      (fun p => { p with requestedPeers := removeAll p.requestedPeers pdPeer })),
    downloadersSem := d.downloadersSem + 1 }
  match res with
  | DownloadResult.err => (d1, none)
  | DownloadResult.done verified =>
    if verified then
      ({ d1 with pieces := (updatePieceAt d1.pieces pdIdx
          (fun p => { p with writing := true })) }, some pdIdx)
    else (d1, none)

/-- Observable outputs of the WriteResponse handler. -/
structure WriteRespOut where
  msgs : List Msg
  completionChecked : Bool
  errForwarded : Bool
deriving DecidableEq

/-- The broadcast loop of the successful-write branch: for every connected
peer, launch SendHave and re-evaluate its interest state. -/
def sendHavesAndUpdate (d : Downloader) (idx : Nat) : List PeerId → Downloader × List Msg
  | [] => (d, [])
  | q :: rest =>
    let r := updateInterestedState d q
    let r' := sendHavesAndUpdate r.1 idx rest
    (r'.1, Msg.sendHave q idx :: (r.2 ++ r'.2))

/-- The WriteResponse handler of Run: clear the writing flag; on error
forward the error and stop; on success set the bitfield bit, check torrent
completion, and broadcast Have plus an interest update to every connected
peer. -/
def handleWriteResponse (d : Downloader) (idx : Nat) (isErr : Bool) :
    Downloader × WriteRespOut :=
  let d1 := { d with pieces := (updatePieceAt d.pieces idx
      (fun p => { p with writing := false })) }
  if isErr then
    (d1, { msgs := [], completionChecked := false, errForwarded := true })
  else
    let d2 := { d1 with bitfield := d1.bitfield.set idx true }
    let r := sendHavesAndUpdate d2 idx (d2.connectedPeers.map Prod.fst)
    (r.1, { msgs := r.2, completionChecked := true, errForwarded := false })

/-- Configuration of the external exponential backoff, as constructed in
New of announcer.go (time values in seconds). -/
structure ExponentialBackOff where
  initialInterval : ℚ
  randomizationFactor : ℚ
  multiplier : ℚ
  maxInterval : ℚ
  maxElapsedTime : ℚ
deriving DecidableEq

/-- Mutable state of the backoff: its configuration plus the current
interval. -/
structure BackoffState where
  cfg : ExponentialBackOff
  currentInterval : ℚ
deriving DecidableEq

/-- Modelled from the spec: NextBackOff of the external backoff library
(github.com/cenkalti/backoff, not part of this repository): return a value
drawn uniformly from the randomization window around the current interval
(r in [0,1] models the draw) and advance the current interval by the
multiplier, capped at maxInterval; with maxElapsedTime zero it never gives
up. -/
def BackoffState.next (b : BackoffState) (r : ℚ) : ℚ × BackoffState :=
  let delta := b.cfg.randomizationFactor * b.currentInterval
  (b.currentInterval - delta + r * (2 * delta),
   { b with currentInterval := min (b.currentInterval * b.cfg.multiplier) b.cfg.maxInterval })

/-- Modelled from the spec: Reset of the external backoff library: the
current interval returns to the initial interval. -/
def BackoffState.reset (b : BackoffState) : BackoffState :=
  { b with currentInterval := b.cfg.initialInterval }

/-- Announcer state: the backoff and the delay until the next announce. -/
structure Announcer where
  backoff : BackoffState
  nextAnnounce : ℚ
deriving DecidableEq

/-- New of announcer.go: the backoff is configured with initial interval
5 s, randomization factor 0.5, multiplier 2, max interval 30 min and max
elapsed time 0 (never stop). -/
def Announcer.new : Announcer :=
  { backoff :=
      { cfg :=
          { initialInterval := 5
            randomizationFactor := 1/2
            multiplier := 2
            maxInterval := 1800
            maxElapsedTime := 0 }
        currentInterval := 0 }
    nextAnnounce := 0 }

/-- Result of one tracker.Announce call. -/
inductive AnnounceResult where
  | ok (interval : ℚ) (peers : List Nat)
  | err
deriving DecidableEq

/-- The announce method of announcer.go, after the tracker call returned:
on error the next announce time comes from the backoff; on success the
backoff is reset, the next announce time is the response interval, and the
discovered peers are pushed to the peer-list sink (second component). -/
def announce (a : Announcer) (res : AnnounceResult) (r : ℚ) :
    Announcer × List (List Nat) :=
  match res with
  | AnnounceResult.err =>
    let n := a.backoff.next r
    ({ a with backoff := n.2, nextAnnounce := n.1 }, [])
  | AnnounceResult.ok interval peers =>
    ({ a with backoff := a.backoff.reset, nextAnnounce := interval }, [peers])

/-! ### Association-list helper lemmas -/

theorem lookupPeer_updatePeerEntry_self (l : List (PeerId × Peer)) (q : PeerId)
    (f : Peer → Peer) :
    lookupPeer (updatePeerEntry l q f) q = (lookupPeer l q).map f := by
  induction l with
  | nil => rfl
  | cons e rest ih =>
    simp only [updatePeerEntry, List.map_cons] at *
    by_cases h : e.1 = q
    · simp [lookupPeer, h]
    · simp [lookupPeer, h, ih]

theorem lookupPeer_updatePeerEntry_ne (l : List (PeerId × Peer)) (q q' : PeerId)
    (f : Peer → Peer) (h : q' ≠ q) :
    lookupPeer (updatePeerEntry l q f) q' = lookupPeer l q' := by
  induction l with
  | nil => rfl
  | cons e rest ih =>
    simp only [updatePeerEntry, List.map_cons] at *
    by_cases he : e.1 = q
    · simp [lookupPeer, he, Ne.symm h, h, ih]
    · by_cases he' : e.1 = q'
      · simp [lookupPeer, he, he', Ne.symm h, h]
      · simp [lookupPeer, he, he', ih]

theorem lookupPeer_map_value (l : List (PeerId × Peer)) (q : PeerId) (f : Peer → Peer) :
    lookupPeer (l.map (fun e => (e.1, f e.2))) q = (lookupPeer l q).map f := by
  induction l with
  | nil => rfl
  | cons e rest ih =>
    by_cases h : e.1 = q <;> simp [lookupPeer, h, ih]

theorem keys_updatePeerEntry (l : List (PeerId × Peer)) (q : PeerId) (f : Peer → Peer) :
    (updatePeerEntry l q f).map Prod.fst = l.map Prod.fst := by
  induction l with
  | nil => rfl
  | cons e rest ih =>
    by_cases h : e.1 = q <;> simp [updatePeerEntry, h] at * <;> exact ih

theorem lookupPeer_isSome_of_mem_keys (l : List (PeerId × Peer)) (q : PeerId)
    (h : q ∈ l.map Prod.fst) : ∃ pe, lookupPeer l q = some pe := by
  induction l with
  | nil => simp at h
  | cons e rest ih =>
    by_cases he : e.1 = q
    · exact ⟨e.2, by simp [lookupPeer, he]⟩
    · have : q ∈ rest.map Prod.fst := by
        rcases List.mem_map.1 h with ⟨x, hx, hq⟩
        rcases List.mem_cons.1 hx with hh | hh
        · exact absurd (hh ▸ hq) he
        · exact List.mem_map.2 ⟨x, hh, hq⟩
      rcases ih this with ⟨pe, hpe⟩
      exact ⟨pe, by simp [lookupPeer, he, hpe]⟩

theorem mem_keys_of_lookupPeer (l : List (PeerId × Peer)) (q : PeerId) (pe : Peer)
    (h : lookupPeer l q = some pe) : q ∈ l.map Prod.fst := by
  induction l with
  | nil => simp [lookupPeer] at h
  | cons e rest ih =>
    by_cases he : e.1 = q
    · exact List.mem_map.2 ⟨e, List.mem_cons_self _ _, he⟩
    · simp only [lookupPeer, if_neg he] at h
      exact List.mem_map.2 (by
        rcases List.mem_map.1 (ih h) with ⟨x, hx, hq⟩
        exact ⟨x, List.mem_cons_of_mem _ hx, hq⟩)

theorem lookupPeer_eq_of_mem_nodup (l : List (PeerId × Peer)) (q : PeerId) (x : Peer)
    (hn : (l.map Prod.fst).Nodup) (h : (q, x) ∈ l) : lookupPeer l q = some x := by
  induction l with
  | nil => simp at h
  | cons e rest ih =>
    rcases List.mem_cons.1 h with hh | hh
    · simp [lookupPeer, ← hh]
    · have he : e.1 ≠ q := by
        intro heq
        have hq : q ∈ rest.map Prod.fst := List.mem_map.2 ⟨(q, x), hh, rfl⟩
        have : e.1 ∈ rest.map Prod.fst := by rw [heq]; exact hq
        exact (List.nodup_cons.1 (by simpa using hn)).1 this
      simp only [lookupPeer, if_neg he]
      exact ih (List.nodup_cons.1 (by simpa using hn)).2 hh

/-! ### Structure eta helpers -/

theorem Peer.eta_amChoking (pe : Peer) (b : Bool) (h : pe.amChoking = b) :
    ({ pe with amChoking := b } : Peer) = pe := by cases pe; cases h; rfl

theorem Peer.eta_amInterested (pe : Peer) (b : Bool) (h : pe.amInterested = b) :
    ({ pe with amInterested := b } : Peer) = pe := by cases pe; cases h; rfl

/-! ### List getD / set helpers -/

theorem getD_set_self {α : Type} (l : List α) (i : Nat) (a dflt : α)
    (h : i < l.length) : (l.set i a).getD i dflt = a := by
  induction l generalizing i with
  | nil => simp at h
  | cons x xs ih =>
    cases i with
    | zero => rfl
    | succ j => simpa using ih j (by simpa using h)

theorem getD_set_ne {α : Type} (l : List α) (i j : Nat) (a dflt : α)
    (h : i ≠ j) : (l.set i a).getD j dflt = l.getD j dflt := by
  induction l generalizing i j with
  | nil => rfl
  | cons x xs ih =>
    cases i with
    | zero =>
      cases j with
      | zero => exact absurd rfl h
      | succ k => rfl
    | succ i' =>
      cases j with
      | zero => rfl
      | succ k => simpa using ih i' k (by omega)

theorem getD_map_lt {α β : Type} (l : List α) (f : α → β) (i : Nat) (d₁ : α) (d₂ : β)
    (h : i < l.length) : (l.map f).getD i d₂ = f (l.getD i d₁) := by
  induction l generalizing i with
  | nil => simp at h
  | cons x xs ih =>
    cases i with
    | zero => rfl
    | succ j => simpa using ih j (by simpa using h)

theorem getD_updatePieceAt_self (l : List Piece) (i : Nat) (f : Piece → Piece)
    (h : i < l.length) :
    (updatePieceAt l i f).getD i Piece.empty = f (l.getD i Piece.empty) := by
  unfold updatePieceAt
  exact getD_set_self _ _ _ _ h

theorem not_mem_removeAll (l : List PeerId) (q : PeerId) : q ∉ removeAll l q := by
  simp [removeAll, List.mem_filter]

theorem removeAll_eq_nil (l : List PeerId) (q : PeerId) (h : l ⊆ [q]) :
    removeAll l q = [] := by
  induction l with
  | nil => rfl
  | cons x rest ih =>
    have hx : x = q := by simpa using h (List.mem_cons_self x rest)
    have hr : removeAll rest q = [] := ih (fun a ha => h (List.mem_cons_of_mem _ ha))
    simp only [removeAll, List.filter_cons] at hr ⊢
    simp [hx, hr]
    intro a ha
    simpa using h (List.mem_cons_of_mem _ ha)

theorem lookupPeer_filter_ne (l : List (PeerId × Peer)) (q : PeerId) :
    lookupPeer (l.filter (fun e => decide (e.1 ≠ q))) q = none := by
  induction l with
  | nil => rfl
  | cons e rest ih =>
    rw [List.filter_cons]
    by_cases he : e.1 = q
    · rw [if_neg (by simp [he])]
      exact ih
    · rw [if_pos (by simp [he])]
      simp only [lookupPeer, if_neg he]
      simpa using ih

/-! ### choke / unchoke effect lemmas -/

theorem chokePeer_lookup_self (d : Downloader) (q : PeerId) (pe : Peer)
    (h : lookupPeer d.connectedPeers q = some pe) :
    lookupPeer (chokePeer d q).1.connectedPeers q = some { pe with amChoking := true } := by
  unfold chokePeer
  rw [h]
  by_cases hc : pe.amChoking
  · simp [hc, h, Peer.eta_amChoking pe true hc]
  · simp [hc, lookupPeer_updatePeerEntry_self, h]

theorem chokePeer_lookup_ne (d : Downloader) (q q' : PeerId) (h : q' ≠ q) :
    lookupPeer (chokePeer d q).1.connectedPeers q' = lookupPeer d.connectedPeers q' := by
  unfold chokePeer
  cases hl : lookupPeer d.connectedPeers q with
  | none => rfl
  | some pe =>
    by_cases hc : pe.amChoking
    · simp [hc]
    · simp [hc, lookupPeer_updatePeerEntry_ne _ _ _ _ h]

theorem unchokePeer_lookup_self (d : Downloader) (q : PeerId) (pe : Peer)
    (h : lookupPeer d.connectedPeers q = some pe) :
    lookupPeer (unchokePeer d q).1.connectedPeers q = some { pe with amChoking := false } := by
  unfold unchokePeer
  rw [h]
  by_cases hc : pe.amChoking
  · simp [hc, lookupPeer_updatePeerEntry_self, h]
  · simp [hc, h, Peer.eta_amChoking pe false (by simpa using hc)]

theorem unchokePeer_lookup_ne (d : Downloader) (q q' : PeerId) (h : q' ≠ q) :
    lookupPeer (unchokePeer d q).1.connectedPeers q' = lookupPeer d.connectedPeers q' := by
  unfold unchokePeer
  cases hl : lookupPeer d.connectedPeers q with
  | none => rfl
  | some pe =>
    by_cases hc : pe.amChoking
    · simp [hc, lookupPeer_updatePeerEntry_ne _ _ _ _ h]
    · simp [hc]

theorem chokeAll_lookup_not_mem (qs : List PeerId) (d : Downloader) (q : PeerId)
    (h : q ∉ qs) :
    lookupPeer (chokeAll d qs).1.connectedPeers q = lookupPeer d.connectedPeers q := by
  induction qs generalizing d with
  | nil => rfl
  | cons x rest ih =>
    simp only [chokeAll]
    rw [ih _ (fun hm => h (List.mem_cons_of_mem _ hm))]
    exact chokePeer_lookup_ne d x q (fun he => h (he ▸ List.mem_cons_self _ _))

theorem chokeAll_lookup_mem (qs : List PeerId) (d : Downloader) (q : PeerId) (pe : Peer)
    (h : q ∈ qs) (hl : lookupPeer d.connectedPeers q = some pe) :
    lookupPeer (chokeAll d qs).1.connectedPeers q = some { pe with amChoking := true } := by
  induction qs generalizing d pe with
  | nil => simp at h
  | cons x rest ih =>
    simp only [chokeAll]
    by_cases hx : q = x
    · subst hx
      have h1 := chokePeer_lookup_self d q pe hl
      by_cases hr : q ∈ rest
      · simpa using ih _ _ hr h1
      · rw [chokeAll_lookup_not_mem rest _ q hr]; exact h1
    · have hr : q ∈ rest := by
        rcases List.mem_cons.1 h with hh | hh
        · exact absurd hh hx
        · exact hh
      exact ih _ _ hr (by rw [chokePeer_lookup_ne d x q hx]; exact hl)

theorem unchokeAll_lookup_not_mem (qs : List PeerId) (d : Downloader) (q : PeerId)
    (h : q ∉ qs) :
    lookupPeer (unchokeAll d qs).1.connectedPeers q = lookupPeer d.connectedPeers q := by
  induction qs generalizing d with
  | nil => rfl
  | cons x rest ih =>
    simp only [unchokeAll]
    rw [ih _ (fun hm => h (List.mem_cons_of_mem _ hm))]
    exact unchokePeer_lookup_ne d x q (fun he => h (he ▸ List.mem_cons_self _ _))

theorem unchokeAll_lookup_mem (qs : List PeerId) (d : Downloader) (q : PeerId) (pe : Peer)
    (h : q ∈ qs) (hl : lookupPeer d.connectedPeers q = some pe) :
    lookupPeer (unchokeAll d qs).1.connectedPeers q = some { pe with amChoking := false } := by
  induction qs generalizing d pe with
  | nil => simp at h
  | cons x rest ih =>
    simp only [unchokeAll]
    by_cases hx : q = x
    · subst hx
      have h1 := unchokePeer_lookup_self d q pe hl
      by_cases hr : q ∈ rest
      · simpa using ih _ _ hr h1
      · rw [unchokeAll_lookup_not_mem rest _ q hr]; exact h1
    · have hr : q ∈ rest := by
        rcases List.mem_cons.1 h with hh | hh
        · exact absurd hh hx
        · exact hh
      exact ih _ _ hr (by rw [unchokePeer_lookup_ne d x q hx]; exact hl)

/-! ### Sorted and findSome helpers -/

theorem pairwise_take_drop {α : Type} {r : α → α → Prop} {l : List α}
    (h : List.Pairwise r l) (k : Nat) :
    ∀ x ∈ l.take k, ∀ y ∈ l.drop k, r x y := by
  induction l generalizing k with
  | nil => intro x hx; simp at hx
  | cons a as ih =>
    cases k with
    | zero => intro x hx; simp at hx
    | succ k' =>
      intro x hx y hy
      rcases List.mem_cons.1 (by simpa using hx) with hh | hh
      · subst hh
        exact (List.pairwise_cons.1 h).1 y (List.drop_subset k' as (by simpa using hy))
      · exact ih (List.pairwise_cons.1 h).2 k' x hh y (by simpa using hy)

theorem findSome_mem {α β : Type} (f : α → Option β) (l : List α) (b : β)
    (h : l.findSome? f = some b) : ∃ a ∈ l, f a = some b := by
  induction l with
  | nil => simp [List.findSome?] at h
  | cons x xs ih =>
    rw [List.findSome?_cons] at h
    cases hx : f x with
    | some b' =>
      rw [hx] at h
      exact ⟨x, List.mem_cons_self _ _, by rw [hx]; exact h⟩
    | none =>
      rw [hx] at h
      rcases ih h with ⟨a, ha, hfa⟩
      exact ⟨a, List.mem_cons_of_mem _ ha, hfa⟩

theorem findSome_none_iff {α β : Type} (f : α → Option β) (l : List α) :
    l.findSome? f = none ↔ ∀ a ∈ l, f a = none := by
  induction l with
  | nil => simp [List.findSome?]
  | cons x xs ih =>
    rw [List.findSome?_cons]
    cases hx : f x with
    | some b => simp [hx]
    | none => simpa [hx] using ih

theorem findSome_first_min {α β : Type} (f : α → Option β) (r : α → α → Prop)
    (hrefl : ∀ a, r a a) (l : List α) (hp : List.Pairwise r l) (b : β)
    (h : l.findSome? f = some b) :
    ∃ a ∈ l, f a = some b ∧ ∀ c ∈ l, f c ≠ none → r a c := by
  induction l with
  | nil => simp [List.findSome?] at h
  | cons x xs ih =>
    rw [List.findSome?_cons] at h
    cases hx : f x with
    | some b' =>
      rw [hx] at h
      refine ⟨x, List.mem_cons_self _ _, by rw [hx]; exact h, ?_⟩
      intro c hc _
      rcases List.mem_cons.1 hc with hh | hh
      · exact hh ▸ hrefl x
      · exact (List.pairwise_cons.1 hp).1 c hh
    | none =>
      rw [hx] at h
      rcases ih (List.pairwise_cons.1 hp).2 h with ⟨a, ha, hfa, hmin⟩
      refine ⟨a, List.mem_cons_of_mem _ ha, hfa, ?_⟩
      intro c hc hcn
      rcases List.mem_cons.1 hc with hh | hh
      · exact absurd (hh ▸ hx) hcn
      · exact hmin c hh hcn

theorem pieceKey_le_cases {n : Nat} {p q : Piece} (hp : p.index ≤ n) (hq : q.index ≤ n)
    (h : pieceKey n p ≤ pieceKey n q) :
    p.havingPeers.length < q.havingPeers.length ∨
      (p.havingPeers.length = q.havingPeers.length ∧ p.index ≤ q.index) := by
  unfold pieceKey at h
  rcases Nat.lt_trichotomy p.havingPeers.length q.havingPeers.length with hlt | heq | hgt
  · exact Or.inl hlt
  · right
    refine ⟨heq, ?_⟩
    rw [heq] at h
    omega
  · exfalso
    have h1 : q.havingPeers.length + 1 ≤ p.havingPeers.length := hgt
    have h2 : (q.havingPeers.length + 1) * (n + 1) ≤ p.havingPeers.length * (n + 1) :=
      Nat.mul_le_mul_right _ h1
    have h3 : q.havingPeers.length * (n + 1) + (n + 1) ≤ p.havingPeers.length * (n + 1) := by
      calc q.havingPeers.length * (n + 1) + (n + 1)
      _ = (q.havingPeers.length + 1) * (n + 1) := by ring
      _ ≤ p.havingPeers.length * (n + 1) := h2
    omega

/-! ### Interest-update lemmas -/

theorem interestedCalc_congr (d1 d2 : Downloader) (q : PeerId)
    (h1 : d1.bitfield = d2.bitfield) (h2 : d1.pieces = d2.pieces) :
    interestedCalc d1 q = interestedCalc d2 q := by
  simp only [interestedCalc, h1, h2]

theorem updateInterestedState_lookup_self (d : Downloader) (q : PeerId) (pe : Peer)
    (h : lookupPeer d.connectedPeers q = some pe) :
    lookupPeer (updateInterestedState d q).1.connectedPeers q
      = some { pe with amInterested := interestedCalc d q } := by
  unfold updateInterestedState
  rw [h]
  by_cases ha : pe.amInterested <;> by_cases hb : interestedCalc d q
  · simp [ha, hb, h, Peer.eta_amInterested pe true ha]
  · simp [ha, hb, lookupPeer_updatePeerEntry_self, h]
  · simp [ha, hb, lookupPeer_updatePeerEntry_self, h]
  · simp only [ha, hb]
    simp [h, Peer.eta_amInterested pe false (by simpa using ha)]

theorem updateInterestedState_lookup_ne (d : Downloader) (q q' : PeerId) (h : q' ≠ q) :
    lookupPeer (updateInterestedState d q).1.connectedPeers q'
      = lookupPeer d.connectedPeers q' := by
  unfold updateInterestedState
  cases hl : lookupPeer d.connectedPeers q with
  | none => rfl
  | some pe =>
    by_cases ha : pe.amInterested <;> by_cases hb : interestedCalc d q <;>
      simp [ha, hb, lookupPeer_updatePeerEntry_ne _ _ _ _ h]

theorem updateInterestedState_bitfield (d : Downloader) (q : PeerId) :
    (updateInterestedState d q).1.bitfield = d.bitfield := by
  unfold updateInterestedState
  cases hl : lookupPeer d.connectedPeers q with
  | none => rfl
  | some pe =>
    by_cases ha : pe.amInterested <;> by_cases hb : interestedCalc d q <;> simp [ha, hb]

theorem updateInterestedState_pieces (d : Downloader) (q : PeerId) :
    (updateInterestedState d q).1.pieces = d.pieces := by
  unfold updateInterestedState
  cases hl : lookupPeer d.connectedPeers q with
  | none => rfl
  | some pe =>
    by_cases ha : pe.amInterested <;> by_cases hb : interestedCalc d q <;> simp [ha, hb]

theorem updateInterestedState_keys (d : Downloader) (q : PeerId) :
    (updateInterestedState d q).1.connectedPeers.map Prod.fst
      = d.connectedPeers.map Prod.fst := by
  unfold updateInterestedState
  cases hl : lookupPeer d.connectedPeers q with
  | none => rfl
  | some pe =>
    by_cases ha : pe.amInterested <;> by_cases hb : interestedCalc d q <;>
      simp [ha, hb, keys_updatePeerEntry]

theorem updateInterestedState_no_sendHave (d : Downloader) (q q'' : PeerId) (idx : Nat) :
    Msg.sendHave q'' idx ∉ (updateInterestedState d q).2 := by
  unfold updateInterestedState
  cases hl : lookupPeer d.connectedPeers q with
  | none => simp
  | some pe =>
    by_cases ha : pe.amInterested <;> by_cases hb : interestedCalc d q <;> simp [ha, hb]

/-! ### Broadcast-loop lemmas -/

theorem sendHavesAndUpdate_bitfield (qs : List PeerId) (d : Downloader) (idx : Nat) :
    (sendHavesAndUpdate d idx qs).1.bitfield = d.bitfield := by
  induction qs generalizing d with
  | nil => rfl
  | cons x rest ih =>
    simp only [sendHavesAndUpdate]
    rw [ih, updateInterestedState_bitfield]

theorem sendHavesAndUpdate_pieces (qs : List PeerId) (d : Downloader) (idx : Nat) :
    (sendHavesAndUpdate d idx qs).1.pieces = d.pieces := by
  induction qs generalizing d with
  | nil => rfl
  | cons x rest ih =>
    simp only [sendHavesAndUpdate]
    rw [ih, updateInterestedState_pieces]

theorem sendHavesAndUpdate_lookup_not_mem (qs : List PeerId) (d : Downloader) (idx : Nat)
    (q : PeerId) (h : q ∉ qs) :
    lookupPeer (sendHavesAndUpdate d idx qs).1.connectedPeers q
      = lookupPeer d.connectedPeers q := by
  induction qs generalizing d with
  | nil => rfl
  | cons x rest ih =>
    simp only [sendHavesAndUpdate]
    rw [ih _ (fun hm => h (List.mem_cons_of_mem _ hm))]
    exact updateInterestedState_lookup_ne d x q (fun he => h (he ▸ List.mem_cons_self _ _))

theorem sendHavesAndUpdate_lookup_mem (qs : List PeerId) (d : Downloader) (idx : Nat)
    (q : PeerId) (pe : Peer) (hn : qs.Nodup) (h : q ∈ qs)
    (hl : lookupPeer d.connectedPeers q = some pe) :
    lookupPeer (sendHavesAndUpdate d idx qs).1.connectedPeers q
      = some { pe with amInterested := interestedCalc d q } := by
  induction qs generalizing d pe with
  | nil => simp at h
  | cons x rest ih =>
    simp only [sendHavesAndUpdate]
    by_cases hx : q = x
    · subst hx
      have h1 := updateInterestedState_lookup_self d q pe hl
      have hq : q ∉ rest := (List.nodup_cons.1 hn).1
      rw [sendHavesAndUpdate_lookup_not_mem rest _ idx q hq]
      exact h1
    · have hr : q ∈ rest := by
        rcases List.mem_cons.1 h with hh | hh
        · exact absurd hh hx
        · exact hh
      have hl' : lookupPeer (updateInterestedState d x).1.connectedPeers q = some pe := by
        rw [updateInterestedState_lookup_ne d x q hx]; exact hl
      have hc : interestedCalc (updateInterestedState d x).1 q = interestedCalc d q :=
        interestedCalc_congr _ _ q (updateInterestedState_bitfield d x)
          (updateInterestedState_pieces d x)
      rw [ih _ _ (List.nodup_cons.1 hn).2 hr hl', hc]

theorem sendHavesAndUpdate_count (qs : List PeerId) (d : Downloader) (idx : Nat)
    (q : PeerId) :
    (sendHavesAndUpdate d idx qs).2.count (Msg.sendHave q idx) = qs.count q := by
  induction qs generalizing d with
  | nil => simp [sendHavesAndUpdate]
  | cons x rest ih =>
    simp only [sendHavesAndUpdate]
    have h0 : (updateInterestedState d x).2.count (Msg.sendHave q idx) = 0 :=
      List.count_eq_zero.2 (updateInterestedState_no_sendHave d x q idx)
    simp [List.count_cons, List.count_append, h0, ih]

/-! ### Concrete sample states -/

/-- A connected peer in its initial state (the Connect handler registers
peers with both choke flags set). -/
def samplePeer : Peer :=
  { amChoking := true, peerChoking := true, amInterested := false,
    optimisticUnhoked := false, bytesDownlaodedInChokePeriod := 0 }

/-- State with peer 7 connected, advertised in the only piece's three sets,
and hosting an active download. -/
def cexD2 : Downloader :=
  { bitfield := [false]
    pieces := [{ index := 0, havingPeers := [7], allowedFastPeers := [7],
                 requestedPeers := [7], writing := false }]
    connectedPeers := [(7, samplePeer)]
    downloads := [7]
    optimisticUnchokedPeer := none
    downloadersSem := 0 }

/-- State with one connected peer that is already unchoked, so the
optimistic-unchoke candidate set is empty. -/
def cexD3 : Downloader :=
  { bitfield := []
    pieces := []
    connectedPeers := [(0, { samplePeer with amChoking := false })]
    downloads := []
    optimisticUnchokedPeer := none
    downloadersSem := 0 }

/-! ### Claim theorems -/

/-- Claim C10: when a WriteResponse carries an error, the handler clears the
piece's writing flag and forwards the error to the error channel, and the
successful-write effects are atomically absent: the bitfield is unchanged,
completion is not checked, no Have message and no interest update is
launched, and the peer table is untouched. -/
theorem claim10_write_error_effects (d : Downloader) (idx : Nat)
    (h : idx < d.pieces.length) :
    ((handleWriteResponse d idx true).1.pieces.getD idx Piece.empty).writing = false ∧
    (handleWriteResponse d idx true).2.errForwarded = true ∧
    (handleWriteResponse d idx true).1.bitfield = d.bitfield ∧
    (handleWriteResponse d idx true).2.completionChecked = false ∧
    (handleWriteResponse d idx true).2.msgs = [] ∧
    (handleWriteResponse d idx true).1.connectedPeers = d.connectedPeers := by
  have h1 : (handleWriteResponse d idx true).1.pieces
      = updatePieceAt d.pieces idx (fun p => { p with writing := false }) := rfl
  refine ⟨?_, rfl, rfl, rfl, rfl, rfl⟩
  rw [h1, getD_updatePieceAt_self _ _ _ h]

/-- Witness for claim C10 at a concrete state. -/
theorem claim10_write_error_witness :
    0 < cexD2.pieces.length ∧
    (((handleWriteResponse cexD2 0 true).1.pieces.getD 0 Piece.empty).writing = false ∧
     (handleWriteResponse cexD2 0 true).2.errForwarded = true ∧
     (handleWriteResponse cexD2 0 true).1.bitfield = cexD2.bitfield ∧
     (handleWriteResponse cexD2 0 true).2.completionChecked = false ∧
     (handleWriteResponse cexD2 0 true).2.msgs = [] ∧
     (handleWriteResponse cexD2 0 true).1.connectedPeers = cexD2.connectedPeers) :=
  ⟨by decide, claim10_write_error_effects cexD2 0 (by decide)⟩

/-- Claim C2 counterexample: processing Disconnect(7) leaves peer 7 in the
downloads map (active_downloads), contradicting the claim that q is absent
from active_downloads after the event. -/
theorem claim2_counterexample : 7 ∈ (disconnect cexD2 7).downloads := by decide

/-- Claim C2 (amended): after Disconnect(q) the peer q is absent from every
piece's havingPeers, allowedFastPeers and requestedPeers sets; the downloads
map (active_downloads) is left untouched by the Disconnect handler and q's
entry, if any, is only removed later by the DownloadDone handler. -/
theorem claim2_amended_disconnect (d : Downloader) (q : PeerId) (i : Nat)
    (h : i < (disconnect d q).pieces.length) :
    q ∉ ((disconnect d q).pieces.getD i Piece.empty).havingPeers ∧
    q ∉ ((disconnect d q).pieces.getD i Piece.empty).allowedFastPeers ∧
    q ∉ ((disconnect d q).pieces.getD i Piece.empty).requestedPeers ∧
    (disconnect d q).downloads = d.downloads := by
  have hlen : i < d.pieces.length := by
    simpa [disconnect] using h
  have hget : (disconnect d q).pieces.getD i Piece.empty
      = { d.pieces.getD i Piece.empty with
          havingPeers := removeAll (d.pieces.getD i Piece.empty).havingPeers q,
          allowedFastPeers := removeAll (d.pieces.getD i Piece.empty).allowedFastPeers q,
          requestedPeers := removeAll (d.pieces.getD i Piece.empty).requestedPeers q } := by
    simp only [disconnect]
    exact getD_map_lt _ _ _ Piece.empty _ hlen
  rw [hget]
  exact ⟨not_mem_removeAll _ _, not_mem_removeAll _ _, not_mem_removeAll _ _, rfl⟩

/-- Witness for the amended claim C2 at a concrete state. -/
theorem claim2_amended_witness :
    0 < (disconnect cexD2 7).pieces.length ∧
    (7 ∉ ((disconnect cexD2 7).pieces.getD 0 Piece.empty).havingPeers ∧
     7 ∉ ((disconnect cexD2 7).pieces.getD 0 Piece.empty).allowedFastPeers ∧
     7 ∉ ((disconnect cexD2 7).pieces.getD 0 Piece.empty).requestedPeers ∧
     (disconnect cexD2 7).downloads = cexD2.downloads) :=
  ⟨by decide, claim2_amended_disconnect cexD2 7 0 (by decide)⟩

/-- State used to exercise the DownloadDone handler: peer 3 holds the only
requestedPeers entry of piece 0 and an active download. -/
def wD6 : Downloader :=
  { bitfield := [false]
    pieces := [{ index := 0, havingPeers := [5], allowedFastPeers := [],
                 requestedPeers := [3], writing := false }]
    connectedPeers := [(5, samplePeer), (3, samplePeer)]
    downloads := [3]
    optimisticUnchokedPeer := none
    downloadersSem := 0 }

/-- Claim C6: on DownloadDone bytes that fail hash verification, the
handler submits no write request, leaves the bitfield unchanged, releases
the slot (one semaphore permit, the downloads entry, the requestedPeers
entry), and — when the failed download held the piece's only requestedPeers
entry and the remaining eligibility conditions hold — the piece is again
eligible for the selector. -/
theorem claim6_hash_mismatch (d : Downloader) (pdIdx : Nat) (pdPeer : PeerId)
    (hidx : pdIdx < d.pieces.length)
    (hreq : (d.pieces.getD pdIdx Piece.empty).requestedPeers ⊆ [pdPeer])
    (hbit : d.bitfield.getD pdIdx false = false)
    (hwr : (d.pieces.getD pdIdx Piece.empty).writing = false)
    (hhav : (d.pieces.getD pdIdx Piece.empty).havingPeers ≠ [])
    (hind : (d.pieces.getD pdIdx Piece.empty).index = pdIdx) :
    (handleDownloadDone d pdIdx pdPeer (DownloadResult.done false)).2 = none ∧
    (handleDownloadDone d pdIdx pdPeer (DownloadResult.done false)).1.bitfield = d.bitfield ∧
    (handleDownloadDone d pdIdx pdPeer (DownloadResult.done false)).1.downloadersSem
      = d.downloadersSem + 1 ∧
    pdPeer ∉ (handleDownloadDone d pdIdx pdPeer (DownloadResult.done false)).1.downloads ∧
    pdPeer ∉ ((handleDownloadDone d pdIdx pdPeer
        (DownloadResult.done false)).1.pieces.getD pdIdx Piece.empty).requestedPeers ∧
    eligibleB (handleDownloadDone d pdIdx pdPeer (DownloadResult.done false)).1
      ((handleDownloadDone d pdIdx pdPeer
        (DownloadResult.done false)).1.pieces.getD pdIdx Piece.empty) = true := by
  have hp : (handleDownloadDone d pdIdx pdPeer (DownloadResult.done false)).1.pieces
      = updatePieceAt d.pieces pdIdx
          (fun p => { p with requestedPeers := removeAll p.requestedPeers pdPeer }) := rfl
  have hgd : (handleDownloadDone d pdIdx pdPeer
        (DownloadResult.done false)).1.pieces.getD pdIdx Piece.empty
      = { d.pieces.getD pdIdx Piece.empty with
          requestedPeers :=
            removeAll (d.pieces.getD pdIdx Piece.empty).requestedPeers pdPeer } := by
    rw [hp, getD_updatePieceAt_self _ _ _ hidx]
  have hbit1 : (handleDownloadDone d pdIdx pdPeer
      (DownloadResult.done false)).1.bitfield = d.bitfield := rfl
  refine ⟨rfl, rfl, rfl, not_mem_removeAll _ _, ?_, ?_⟩
  · rw [hgd]
    exact not_mem_removeAll _ _
  · have hnil := removeAll_eq_nil _ _ hreq
    cases hcase : (d.pieces.getD pdIdx Piece.empty).havingPeers with
    | nil => exact absurd hcase hhav
    | cons a as =>
      rw [hgd, hnil]
      unfold eligibleB
      rw [hbit1]
      dsimp only
      rw [hind, hbit, hwr, hcase]
      rfl

/-- Witness for claim C6 at a concrete state. -/
theorem claim6_hash_mismatch_witness :
    (0 < wD6.pieces.length ∧
     (wD6.pieces.getD 0 Piece.empty).requestedPeers ⊆ [3] ∧
     wD6.bitfield.getD 0 false = false ∧
     (wD6.pieces.getD 0 Piece.empty).writing = false ∧
     (wD6.pieces.getD 0 Piece.empty).havingPeers ≠ [] ∧
     (wD6.pieces.getD 0 Piece.empty).index = 0) ∧
    ((handleDownloadDone wD6 0 3 (DownloadResult.done false)).2 = none ∧
     (handleDownloadDone wD6 0 3 (DownloadResult.done false)).1.bitfield = wD6.bitfield ∧
     (handleDownloadDone wD6 0 3 (DownloadResult.done false)).1.downloadersSem
       = wD6.downloadersSem + 1 ∧
     3 ∉ (handleDownloadDone wD6 0 3 (DownloadResult.done false)).1.downloads ∧
     3 ∉ ((handleDownloadDone wD6 0 3
         (DownloadResult.done false)).1.pieces.getD 0 Piece.empty).requestedPeers ∧
     eligibleB (handleDownloadDone wD6 0 3 (DownloadResult.done false)).1
       ((handleDownloadDone wD6 0 3
         (DownloadResult.done false)).1.pieces.getD 0 Piece.empty) = true) :=
  ⟨⟨by decide, by decide, by decide, by decide, by decide, by decide⟩,
   claim6_hash_mismatch wD6 0 3 (by decide) (by decide) (by decide)
     (by decide) (by decide) (by decide)⟩

/-- The state reached by the successful-write branch just before the Have
broadcast: writing cleared and the bitfield bit set. -/
def writeOkState (d : Downloader) (idx : Nat) : Downloader :=
  { d with
    pieces := (updatePieceAt d.pieces idx (fun p => { p with writing := false })),
    bitfield := d.bitfield.set idx true }

theorem handleWriteResponse_ok_eq (d : Downloader) (idx : Nat) :
    handleWriteResponse d idx false
      = ((sendHavesAndUpdate (writeOkState d idx) idx
           ((writeOkState d idx).connectedPeers.map Prod.fst)).1,
         { msgs := (sendHavesAndUpdate (writeOkState d idx) idx
             ((writeOkState d idx).connectedPeers.map Prod.fst)).2,
           completionChecked := true, errForwarded := false }) := rfl

/-- Claim C7: a successful WriteResponse for piece idx sets bitfield bit
idx, checks torrent completion, launches exactly one Have(idx) per
connected peer, and re-evaluates (and stores) every connected peer's
interest state, all within the handler. -/
theorem claim7_write_success (d : Downloader) (idx : Nat)
    (hn : (d.connectedPeers.map Prod.fst).Nodup)
    (hidx : idx < d.bitfield.length) :
    (handleWriteResponse d idx false).1.bitfield.getD idx false = true ∧
    (handleWriteResponse d idx false).2.completionChecked = true ∧
    ∀ q ∈ d.connectedPeers.map Prod.fst,
      (handleWriteResponse d idx false).2.msgs.count (Msg.sendHave q idx) = 1 ∧
      (lookupPeer (handleWriteResponse d idx false).1.connectedPeers q).map Peer.amInterested
        = some (interestedCalc (handleWriteResponse d idx false).1 q) := by
  rw [handleWriteResponse_ok_eq]
  dsimp only
  have hconn : (writeOkState d idx).connectedPeers = d.connectedPeers := rfl
  refine ⟨?_, rfl, ?_⟩
  · rw [sendHavesAndUpdate_bitfield]
    show (d.bitfield.set idx true).getD idx false = true
    exact getD_set_self _ _ _ _ hidx
  · intro q hqmem
    rcases lookupPeer_isSome_of_mem_keys d.connectedPeers q hqmem with ⟨pe, hpe⟩
    constructor
    · rw [sendHavesAndUpdate_count, hconn]
      exact List.count_eq_one_of_mem hn hqmem
    · rw [hconn]
      rw [sendHavesAndUpdate_lookup_mem (d.connectedPeers.map Prod.fst)
        (writeOkState d idx) idx q pe hn hqmem
        (show lookupPeer (writeOkState d idx).connectedPeers q = some pe from hpe)]
      have hcc : interestedCalc (sendHavesAndUpdate (writeOkState d idx) idx
            (d.connectedPeers.map Prod.fst)).1 q
          = interestedCalc (writeOkState d idx) q :=
        interestedCalc_congr _ _ q (sendHavesAndUpdate_bitfield _ _ _)
          (sendHavesAndUpdate_pieces _ _ _)
      rw [hcc]
      rfl

/-- State used to exercise the successful-write broadcast: one connected
peer (id 5) advertising the only piece. -/
def wD7 : Downloader :=
  { bitfield := [false]
    pieces := [{ index := 0, havingPeers := [5], allowedFastPeers := [],
                 requestedPeers := [], writing := true }]
    connectedPeers := [(5, samplePeer)]
    downloads := []
    optimisticUnchokedPeer := none
    downloadersSem := 0 }

/-- Witness for claim C7 at a concrete state, instantiated at peer 5. -/
theorem claim7_write_success_witness :
    ((wD7.connectedPeers.map Prod.fst).Nodup ∧ 0 < wD7.bitfield.length) ∧
    ((handleWriteResponse wD7 0 false).1.bitfield.getD 0 false = true ∧
     (handleWriteResponse wD7 0 false).2.completionChecked = true ∧
     (handleWriteResponse wD7 0 false).2.msgs.count (Msg.sendHave 5 0) = 1 ∧
     (lookupPeer (handleWriteResponse wD7 0 false).1.connectedPeers 5).map Peer.amInterested
       = some (interestedCalc (handleWriteResponse wD7 0 false).1 5)) := by
  have h := claim7_write_success wD7 0 (by decide) (by decide)
  exact ⟨⟨by decide, by decide⟩, h.1, h.2.1, (h.2.2 5 (by decide)).1, (h.2.2 5 (by decide)).2⟩

/-- Claim C8: after an interest update for peer q, the stored am_interested
flag equals the predicate (some piece i is locally missing and advertised
by q), and an Interested / NotInterested wire message is launched exactly
when the computed value differs from the previously stored flag. -/
theorem claim8_interest_flag (d : Downloader) (q : PeerId) (pe : Peer)
    (hq : lookupPeer d.connectedPeers q = some pe)
    (hlen : d.bitfield.length = d.pieces.length) :
    ((lookupPeer (updateInterestedState d q).1.connectedPeers q).map Peer.amInterested
      = some (decide (∃ i < d.pieces.length,
          d.bitfield.getD i false = false
            ∧ q ∈ (d.pieces.getD i Piece.empty).havingPeers))) ∧
    ((updateInterestedState d q).2 =
      if pe.amInterested = decide (∃ i < d.pieces.length,
          d.bitfield.getD i false = false
            ∧ q ∈ (d.pieces.getD i Piece.empty).havingPeers)
      then []
      else if pe.amInterested then [Msg.notInterested q] else [Msg.interested q]) := by
  have hc : interestedCalc d q = decide (∃ i < d.pieces.length,
      d.bitfield.getD i false = false ∧ q ∈ (d.pieces.getD i Piece.empty).havingPeers) := by
    unfold interestedCalc
    rw [decide_eq_decide]
    constructor
    · rintro ⟨i, hi, hh⟩
      exact ⟨i, by omega, hh⟩
    · rintro ⟨i, hi, hh⟩
      exact ⟨i, by omega, hh⟩
  rw [← hc]
  constructor
  · rw [updateInterestedState_lookup_self d q pe hq]
    rfl
  · unfold updateInterestedState
    rw [hq]
    by_cases ha : pe.amInterested <;> by_cases hb : interestedCalc d q <;>
      simp [ha, hb]

/-- State used to exercise the interest update: peer 5 advertises the only
piece, which is locally missing, and am_interested is false. -/
def wD8 : Downloader :=
  { bitfield := [false]
    pieces := [{ index := 0, havingPeers := [5], allowedFastPeers := [],
                 requestedPeers := [], writing := false }]
    connectedPeers := [(5, samplePeer)]
    downloads := []
    optimisticUnchokedPeer := none
    downloadersSem := 0 }

/-- Witness for claim C8 at a concrete state: the flag flips to true and a
single Interested message is launched. -/
theorem claim8_interest_flag_witness :
    (lookupPeer wD8.connectedPeers 5 = some samplePeer ∧
     wD8.bitfield.length = wD8.pieces.length) ∧
    (((lookupPeer (updateInterestedState wD8 5).1.connectedPeers 5).map Peer.amInterested
      = some (decide (∃ i < wD8.pieces.length,
          wD8.bitfield.getD i false = false
            ∧ 5 ∈ (wD8.pieces.getD i Piece.empty).havingPeers))) ∧
     ((updateInterestedState wD8 5).2 =
      if samplePeer.amInterested = decide (∃ i < wD8.pieces.length,
          wD8.bitfield.getD i false = false
            ∧ 5 ∈ (wD8.pieces.getD i Piece.empty).havingPeers)
      then []
      else if samplePeer.amInterested then [Msg.notInterested 5] else [Msg.interested 5])) :=
  ⟨⟨by decide, by decide⟩, claim8_interest_flag wD8 5 samplePeer (by decide) (by decide)⟩

/-- Claim C3: refuted by the code: with a connected peer present but an
empty optimistic-unchoke candidate set (the peer is already unchoked), the
tick is not a no-op — the source reaches rand.Intn(0) and panics, modelled
by the none result of optimisticUnchokeTick. -/
theorem claim3_empty_candidates_panic :
    optimisticCandidates cexD3 = [] ∧ optimisticUnchokeTick cexD3 0 = none := by decide

/-- Claim C9: after an announce attempt, on tracker error the next announce
delay comes from the exponential backoff configured in New (initial 5 s,
multiplier 2, cap 30 min = 1800 s, randomization factor 0.5, max elapsed
time 0, i.e. never giving up): the drawn delay lies in the randomization
window around the current interval and the interval doubles, capped at
30 min; on success the backoff is reset to the initial interval, the next
announce delay is the response interval, and the discovered peers are
pushed to the peer-list sink. -/
theorem claim9_announce_backoff (a : Announcer) (r interval : ℚ) (peers : List Nat)
    (hcfg : a.backoff.cfg = Announcer.new.backoff.cfg)
    (hcur : 0 ≤ a.backoff.currentInterval)
    (hr0 : 0 ≤ r) (hr1 : r ≤ 1) :
    (Announcer.new.backoff.cfg.initialInterval = 5 ∧
     Announcer.new.backoff.cfg.multiplier = 2 ∧
     Announcer.new.backoff.cfg.maxInterval = 1800 ∧
     Announcer.new.backoff.cfg.randomizationFactor = 1/2 ∧
     Announcer.new.backoff.cfg.maxElapsedTime = 0) ∧
    ((announce a AnnounceResult.err r).2 = [] ∧
     (announce a AnnounceResult.err r).1.backoff.currentInterval
       = min (a.backoff.currentInterval * 2) 1800 ∧
     a.backoff.currentInterval / 2 ≤ (announce a AnnounceResult.err r).1.nextAnnounce ∧
     (announce a AnnounceResult.err r).1.nextAnnounce
       ≤ 3 / 2 * a.backoff.currentInterval) ∧
    (announce a (AnnounceResult.ok interval peers) r
       = ({ a with backoff := a.backoff.reset, nextAnnounce := interval }, [peers]) ∧
     (announce a (AnnounceResult.ok interval peers) r).1.backoff.currentInterval = 5) := by
  have hv : (announce a AnnounceResult.err r).1.nextAnnounce
      = a.backoff.currentInterval
          - a.backoff.cfg.randomizationFactor * a.backoff.currentInterval
          + r * (2 * (a.backoff.cfg.randomizationFactor * a.backoff.currentInterval)) := rfl
  have hrf : a.backoff.cfg.randomizationFactor = 1/2 := by rw [hcfg]; rfl
  refine ⟨⟨rfl, rfl, rfl, rfl, rfl⟩, ⟨rfl, ?_, ?_, ?_⟩, rfl, ?_⟩
  · have hcicfg : (announce a AnnounceResult.err r).1.backoff.currentInterval
        = min (a.backoff.currentInterval * a.backoff.cfg.multiplier)
            a.backoff.cfg.maxInterval := rfl
    rw [hcicfg, hcfg]; rfl
  · rw [hv, hrf]
    nlinarith [mul_nonneg hr0 hcur]
  · rw [hv, hrf]
    nlinarith [mul_le_mul_of_nonneg_right hr1 hcur, mul_nonneg hr0 hcur]
  · have hok : (announce a (AnnounceResult.ok interval peers) r).1.backoff.currentInterval
        = a.backoff.cfg.initialInterval := rfl
    rw [hok, hcfg]; rfl

/-- Witness for claim C9 at the freshly constructed announcer. -/
theorem claim9_announce_backoff_witness :
    (Announcer.new.backoff.cfg = Announcer.new.backoff.cfg ∧
     0 ≤ Announcer.new.backoff.currentInterval ∧
     (0 : ℚ) ≤ 0 ∧ (0 : ℚ) ≤ 1) ∧
    ((Announcer.new.backoff.cfg.initialInterval = 5 ∧
      Announcer.new.backoff.cfg.multiplier = 2 ∧
      Announcer.new.backoff.cfg.maxInterval = 1800 ∧
      Announcer.new.backoff.cfg.randomizationFactor = 1/2 ∧
      Announcer.new.backoff.cfg.maxElapsedTime = 0) ∧
     ((announce Announcer.new AnnounceResult.err 0).2 = [] ∧
      (announce Announcer.new AnnounceResult.err 0).1.backoff.currentInterval
        = min (Announcer.new.backoff.currentInterval * 2) 1800 ∧
      Announcer.new.backoff.currentInterval / 2
        ≤ (announce Announcer.new AnnounceResult.err 0).1.nextAnnounce ∧
      (announce Announcer.new AnnounceResult.err 0).1.nextAnnounce
        ≤ 3 / 2 * Announcer.new.backoff.currentInterval) ∧
     (announce Announcer.new (AnnounceResult.ok 7 [42, 43]) 0
        = ({ Announcer.new with
              backoff := Announcer.new.backoff.reset
              nextAnnounce := 7 }, [[42, 43]]) ∧
      (announce Announcer.new (AnnounceResult.ok 7 [42, 43]) 0).1.backoff.currentInterval
        = 5)) :=
  ⟨⟨rfl, by norm_num [Announcer.new], by norm_num, by norm_num⟩,
   claim9_announce_backoff Announcer.new 0 7 [42, 43] rfl
     (by norm_num [Announcer.new]) (by norm_num) (by norm_num)⟩

/-- State whose only connected peer is the optimistic pick and currently
unchoked by us. -/
def cexD1 : Downloader :=
  { bitfield := []
    pieces := []
    connectedPeers :=
      [(0, { samplePeer with amChoking := false, optimisticUnhoked := true })]
    downloads := []
    optimisticUnchokedPeer := some 0
    downloadersSem := 0 }

/-- Claim C1 counterexample: peer 0 is the optimistic pick and currently
unchoked; the regular-unchoke tick nevertheless chokes it and launches a
Choke message, refuting the clause that the optimistically-unchoked peer is
never choked by the regular tick. -/
theorem claim1_counterexample :
    cexD1.optimisticUnchokedPeer = some 0 ∧
    (lookupPeer cexD1.connectedPeers 0).map Peer.optimisticUnhoked = some true ∧
    (lookupPeer (regularUnchokeTick cexD1).1.connectedPeers 0).map Peer.amChoking
      = some true ∧
    Msg.choke 0 ∈ (regularUnchokeTick cexD1).2 := by decide

/-- Claim C1 (amended): the regular tick collects the connected peers that
are not the optimistic pick, sorts them by download rate descending (every
taken peer dominates every dropped one), resets every connected peer's
counter to 0, unchokes the top three of that list, and chokes every other
connected peer including the optimistic pick: the optimistic peer never
appears in the top-three list and is therefore choked by the regular
tick. -/
theorem claim1_amended_tick (d : Downloader) (q : PeerId) (pe : Peer)
    (hn : (d.connectedPeers.map Prod.fst).Nodup)
    (hq : lookupPeer d.connectedPeers q = some pe) :
    (∀ a ∈ (List.insertionSort byDownloadRate (unchokeCandidates d)).take 3,
      ∀ b ∈ (List.insertionSort byDownloadRate (unchokeCandidates d)).drop 3,
        b.2.bytesDownlaodedInChokePeriod ≤ a.2.bytesDownlaodedInChokePeriod) ∧
    lookupPeer (regularUnchokeTick d).1.connectedPeers q
      = some { pe with bytesDownlaodedInChokePeriod := 0,
                       amChoking := if q ∈ top3 d then false else true } ∧
    (pe.optimisticUnhoked = true → q ∉ top3 d) := by
  have hshape : (regularUnchokeTick d).1
      = (chokeAll (unchokeAll (resetCounters d) (top3 d)).1
          ((d.connectedPeers.map Prod.fst).filter (fun x => !decide (x ∈ top3 d)))).1 := rfl
  have hq0 : lookupPeer (resetCounters d).connectedPeers q
      = some { pe with bytesDownlaodedInChokePeriod := 0 } := by
    have h1 := lookupPeer_map_value d.connectedPeers q
      (fun p => { p with bytesDownlaodedInChokePeriod := 0 })
    unfold resetCounters
    dsimp only at h1 ⊢
    rw [h1, hq]
    rfl
  refine ⟨?_, ?_, ?_⟩
  · intro a ha b hb
    have hs : List.Pairwise byDownloadRate
        (List.insertionSort byDownloadRate (unchokeCandidates d)) :=
      List.sorted_insertionSort byDownloadRate (unchokeCandidates d)
    exact pairwise_take_drop hs 3 a ha b hb
  · rw [hshape]
    by_cases hq3 : q ∈ top3 d
    · have h1 := unchokeAll_lookup_mem (top3 d) (resetCounters d) q
        { pe with bytesDownlaodedInChokePeriod := 0 } hq3 hq0
      have hnotin : q ∉ (d.connectedPeers.map Prod.fst).filter
          (fun x => !decide (x ∈ top3 d)) := by
        intro hmem
        rcases List.mem_filter.1 hmem with ⟨_, hpred⟩
        simp [hq3] at hpred
      rw [chokeAll_lookup_not_mem _ _ _ hnotin, h1]
      simp [hq3]
    · have h1 := unchokeAll_lookup_not_mem (top3 d) (resetCounters d) q hq3
      have hmem : q ∈ (d.connectedPeers.map Prod.fst).filter
          (fun x => !decide (x ∈ top3 d)) :=
        List.mem_filter.2 ⟨mem_keys_of_lookupPeer _ _ _ hq, by simp [hq3]⟩
      rw [chokeAll_lookup_mem _ _ q { pe with bytesDownlaodedInChokePeriod := 0 } hmem
        (by rw [h1]; exact hq0)]
      simp [hq3]
  · intro hopt hq3
    have hq3' : q ∈ ((List.insertionSort byDownloadRate
        (unchokeCandidates d)).take 3).map Prod.fst := hq3
    rcases List.mem_map.1 hq3' with ⟨a, hat, haq⟩
    have hasorted : a ∈ List.insertionSort byDownloadRate (unchokeCandidates d) :=
      List.take_subset 3 _ hat
    have hacand : a ∈ unchokeCandidates d :=
      (List.perm_insertionSort byDownloadRate (unchokeCandidates d)).mem_iff.1 hasorted
    rcases List.mem_filter.1 hacand with ⟨hconn, hpred⟩
    have hlq : lookupPeer d.connectedPeers a.1 = some a.2 :=
      lookupPeer_eq_of_mem_nodup _ _ _ hn hconn
    rw [haq, hq] at hlq
    have ha2 : pe = a.2 := by injection hlq
    rw [← ha2, hopt] at hpred
    simp at hpred

/-- The optimistic, currently unchoked peer of the wD1 state. -/
def wPeer1 : Peer :=
  { samplePeer with amChoking := false, optimisticUnhoked := true }

/-- State with the optimistic pick (peer 0, unchoked) and one regular peer
with download credit, used to exercise the regular tick. -/
def wD1 : Downloader :=
  { bitfield := []
    pieces := []
    connectedPeers :=
      [(0, wPeer1),
       (1, { samplePeer with bytesDownlaodedInChokePeriod := 5 })]
    downloads := []
    optimisticUnchokedPeer := some 0
    downloadersSem := 0 }

/-- Witness for the amended claim C1, applied to the optimistic peer 0 of a
concrete state. -/
theorem claim1_amended_tick_witness :
    ((wD1.connectedPeers.map Prod.fst).Nodup ∧
     lookupPeer wD1.connectedPeers 0 = some wPeer1) ∧
    ((∀ a ∈ (List.insertionSort byDownloadRate (unchokeCandidates wD1)).take 3,
       ∀ b ∈ (List.insertionSort byDownloadRate (unchokeCandidates wD1)).drop 3,
         b.2.bytesDownlaodedInChokePeriod ≤ a.2.bytesDownlaodedInChokePeriod) ∧
     lookupPeer (regularUnchokeTick wD1).1.connectedPeers 0
       = some { wPeer1 with
                bytesDownlaodedInChokePeriod := 0,
                amChoking := if 0 ∈ top3 wD1 then false else true } ∧
     (wPeer1.optimisticUnhoked = true → 0 ∉ top3 wD1)) :=
  ⟨⟨by decide, by decide⟩,
   claim1_amended_tick wD1 0 wPeer1 (by decide) (by decide)⟩

/-- Selector sample state: piece 0 (availability 1) is eligible but its
only peer is choking us; piece 1 (availability 2) has an unchoked peer. -/
def selState : Downloader :=
  { bitfield := [false, false]
    pieces :=
      [{ index := 0, havingPeers := [1], allowedFastPeers := [],
         requestedPeers := [], writing := false },
       { index := 1, havingPeers := [2, 3], allowedFastPeers := [],
         requestedPeers := [], writing := false }]
    connectedPeers :=
      [(1, samplePeer),
       (2, { samplePeer with peerChoking := false }),
       (3, { samplePeer with peerChoking := false })]
    downloads := []
    optimisticUnchokedPeer := none
    downloadersSem := 4 }

/-- Claim C4 counterexample: the selector returns piece 1 (availability 2)
although piece 0 is eligible with strictly smaller availability 1 — piece 0
has no usable peer (its only peer is choking us, no allowed-fast grant), so
the scan moves past it, contradicting the claim that the returned piece's
availability is minimal among all eligible pieces. -/
theorem claim4_counterexample :
    nextDownload selState = some (1, 2) ∧
    eligibleB selState (selState.pieces.getD 0 Piece.empty) = true ∧
    (selState.pieces.getD 0 Piece.empty).havingPeers.length
      < (selState.pieces.getD 1 Piece.empty).havingPeers.length := by decide

/-- Claim C4 (amended): when nextDownload returns (i, q), the chosen
piece's availability is ≤ that of every other eligible piece from which
the selector can actually pick a peer (an allowed-fast or not-choking peer
without an active download), ties among such pieces broken towards the
lower piece index. -/
theorem claim4_amended_rarest_first (d : Downloader) (i : Nat) (q : PeerId)
    (hidx : ∀ p ∈ d.pieces, p.index ≤ d.pieces.length)
    (h : nextDownload d = some (i, q)) :
    ∃ p0 ∈ d.pieces, p0.index = i ∧ eligibleB d p0 = true ∧ pickPeer d p0 = some q ∧
      ∀ p ∈ d.pieces, eligibleB d p = true → (pickPeer d p).isSome →
        p0.havingPeers.length < p.havingPeers.length ∨
          (p0.havingPeers.length = p.havingPeers.length ∧ p0.index ≤ p.index) := by
  have hperm := List.perm_insertionSort (byAvailability d.pieces.length) d.pieces
  have hpair : List.Pairwise (byAvailability d.pieces.length) (sortedPieces d) :=
    List.sorted_insertionSort _ _
  rcases findSome_first_min _ (byAvailability d.pieces.length)
      (fun p => Nat.le_refl (pieceKey d.pieces.length p)) (sortedPieces d) hpair _ h
    with ⟨p0, hp0s, hfp0, hmin⟩
  have hp0d : p0 ∈ d.pieces := hperm.mem_iff.1 hp0s
  by_cases he : eligibleB d p0
  · rw [if_pos he] at hfp0
    cases hpk : pickPeer d p0 with
    | none =>
      rw [hpk] at hfp0
      simp at hfp0
    | some q0 =>
      rw [hpk] at hfp0
      simp at hfp0
      obtain ⟨hi, hq0⟩ := hfp0
      refine ⟨p0, hp0d, hi, he, by rw [hpk, hq0], ?_⟩
      intro p hpd hpe hpick
      have hps : p ∈ sortedPieces d := hperm.mem_iff.2 hpd
      have hfp : (if eligibleB d p then (pickPeer d p).map
          (fun x => (p.index, x)) else none) ≠ none := by
        rw [if_pos hpe]
        cases hx : pickPeer d p with
        | none =>
          rw [hx] at hpick
          simp at hpick
        | some q1 => simp [hx]
      have hle := hmin p hps hfp
      exact pieceKey_le_cases (hidx p0 hp0d) (hidx p hpd) hle
  · rw [if_neg he] at hfp0
    simp at hfp0

/-- Witness for the amended claim C4 at the selector sample state. -/
theorem claim4_amended_witness :
    (∀ p ∈ selState.pieces, p.index ≤ selState.pieces.length) ∧
    (∃ p0 ∈ selState.pieces, p0.index = 1 ∧ eligibleB selState p0 = true ∧
      pickPeer selState p0 = some 2 ∧
      ∀ p ∈ selState.pieces, eligibleB selState p = true → (pickPeer selState p).isSome →
        p0.havingPeers.length < p.havingPeers.length ∨
          (p0.havingPeers.length = p.havingPeers.length ∧ p0.index ≤ p.index)) :=
  ⟨by decide, claim4_amended_rarest_first selState 1 2 (by decide) (by decide)⟩

/-- Claim C5: the selector considers only eligible pieces; within an
eligible piece it prefers allowed-fast peers regardless of their choke
state and otherwise takes only peers that are not choking us; it skips any
candidate peer hosting an active download; and it returns none exactly when
no (piece, peer) candidate survives. -/
theorem claim5_selector_policy (d : Downloader) :
    (∀ i q, nextDownload d = some (i, q) →
      ∃ p ∈ d.pieces, p.index = i ∧ eligibleB d p = true ∧ q ∈ p.havingPeers ∧
        q ∉ d.downloads ∧ (q ∈ p.allowedFastPeers ∨ peerChokingOf d q = false) ∧
        ((∃ q' ∈ p.havingPeers, q' ∈ p.allowedFastPeers ∧ q' ∉ d.downloads) →
          q ∈ p.allowedFastPeers)) ∧
    (nextDownload d = none ↔
      ∀ p ∈ d.pieces, eligibleB d p = true → ∀ q ∈ p.havingPeers,
        q ∈ d.downloads ∨ (q ∉ p.allowedFastPeers ∧ peerChokingOf d q = true)) := by
  have hperm := List.perm_insertionSort (byAvailability d.pieces.length) d.pieces
  constructor
  · intro i q h
    rcases findSome_mem _ _ _ h with ⟨p, hps, hfp⟩
    have hpd : p ∈ d.pieces := hperm.mem_iff.1 hps
    by_cases he : eligibleB d p
    · rw [if_pos he] at hfp
      cases hpk : pickPeer d p with
      | none =>
        rw [hpk] at hfp
        simp at hfp
      | some q0 =>
        rw [hpk] at hfp
        simp at hfp
        obtain ⟨hi, hq0⟩ := hfp
        subst hq0
        unfold pickPeer at hpk
        cases hf : p.havingPeers.find?
            (fun x => decide (x ∈ p.allowedFastPeers) && !decide (x ∈ d.downloads)) with
        | some q1 =>
          rw [hf] at hpk
          have hq1 : q1 = q0 := by injection hpk
          subst hq1
          have hpred := List.find?_some hf
          have hmem := List.mem_of_find?_eq_some hf
          simp at hpred
          exact ⟨p, hpd, hi, he, hmem, hpred.2, Or.inl hpred.1, fun _ => hpred.1⟩
        | none =>
          rw [hf] at hpk
          have hpred := List.find?_some hpk
          have hmem := List.mem_of_find?_eq_some hpk
          simp at hpred
          refine ⟨p, hpd, hi, he, hmem, hpred.2, Or.inr ?_, ?_⟩
          · simpa using hpred.1
          · rintro ⟨q', hq'h, hq'f, hq'd⟩
            have hnone := List.find?_eq_none.1 hf q' hq'h
            simp [hq'f, hq'd] at hnone
    · rw [if_neg he] at hfp
      simp at hfp
  · rw [nextDownload, findSome_none_iff]
    constructor
    · intro hall p hpd he q hqh
      have hps : p ∈ sortedPieces d := hperm.mem_iff.2 hpd
      have hfp := hall p hps
      rw [if_pos he] at hfp
      have hpk : pickPeer d p = none := by
        cases hx : pickPeer d p with
        | none => rfl
        | some q0 =>
          rw [hx] at hfp
          simp at hfp
      unfold pickPeer at hpk
      cases hf : p.havingPeers.find?
          (fun x => decide (x ∈ p.allowedFastPeers) && !decide (x ∈ d.downloads)) with
      | some q1 =>
        rw [hf] at hpk
        exact absurd hpk (by simp)
      | none =>
        rw [hf] at hpk
        have h1 := List.find?_eq_none.1 hf q hqh
        have h2 := List.find?_eq_none.1 hpk q hqh
        simp at h1 h2
        by_cases hd : q ∈ d.downloads
        · exact Or.inl hd
        · refine Or.inr ⟨fun hqf => hd (h1 hqf), ?_⟩
          by_cases hch : peerChokingOf d q = true
          · exact hch
          · exact absurd (h2 (by simpa using hch)) hd
    · intro hall p hps
      have hpd : p ∈ d.pieces := hperm.mem_iff.1 hps
      by_cases he : eligibleB d p
      · rw [if_pos he]
        have hf : p.havingPeers.find?
            (fun x => decide (x ∈ p.allowedFastPeers) && !decide (x ∈ d.downloads)) = none := by
          rw [List.find?_eq_none]
          intro x hx
          rcases hall p hpd he x hx with hdl | ⟨hnf, _⟩
          · simp [hdl]
          · simp [hnf]
        have hsnd : p.havingPeers.find?
            (fun x => !peerChokingOf d x && !decide (x ∈ d.downloads)) = none := by
          rw [List.find?_eq_none]
          intro x hx
          rcases hall p hpd he x hx with hdl | ⟨_, hck⟩
          · simp [hdl]
          · simp [hck]
        have hpk : pickPeer d p = none := by
          unfold pickPeer
          rw [hf, hsnd]
        rw [hpk]
        rfl
      · rw [if_neg he]

/-- Witness for claim C5: the selector's pick at the sample state satisfies
all the policy conjuncts. -/
theorem claim5_selector_policy_witness :
    ∃ p ∈ selState.pieces, p.index = 1 ∧ eligibleB selState p = true ∧
      2 ∈ p.havingPeers ∧ 2 ∉ selState.downloads ∧
      (2 ∈ p.allowedFastPeers ∨ peerChokingOf selState 2 = false) ∧
      ((∃ q' ∈ p.havingPeers, q' ∈ p.allowedFastPeers ∧ q' ∉ selState.downloads) →
        2 ∈ p.allowedFastPeers) :=
  (claim5_selector_policy selState).1 1 2 (by decide)

end Rain
